import Mathlib

/-!
A shallow embedding of `lime.scheduleManager` (limejs, file
`src/lime/src/schedulemanager.js`) together with proofs about its scheduling,
dispatching and task-lifecycle behaviour.

Modelling decisions:
* Callbacks and contexts are opaque heap values; both are represented by `Nat`
  identifiers.  Whether a callback value is actually a function
  (the `goog.isFunction(f[1])` test on line 83) is abstracted by a predicate
  `isFn : Nat → Bool` threaded through the dispatch path.
* JS numbers used as millisecond counts are modelled as `Int`.  The display
  rate, whose initial value `1000/30` is fractional, is modelled as `ℚ`; it
  never enters any arithmetic relevant to the properties proved here.
* A registration tuple `[1, f, context]` (line 141) is a `Reg`; the activity
  slot, which holds either the initial `1` or a boolean written by
  `changeDirectorActivity` (line 297), is modelled as a `Bool` since only its
  truthiness is ever read (line 83).
* Callback invocations are recorded in a trace of `Call` events.  Re-entrant
  behaviour of a callback is modelled by `eff : Nat → Nat → List (Nat × Nat)`:
  the list of `unschedule(f, context)` calls the callback performs when it is
  invoked.  The claims analysed here only require re-entrant `unschedule`
  calls, so other re-entrant operations are not modelled.
* A thrown JS `TypeError` (reading a property of `undefined`) is modelled by
  `Option`: a `none` result is an uncaught exception.
* The duck-typed group lookup of `changeDirectorActivity`
  (`goog.isFunction(context.getDirector)` followed by `context.getDirector()`,
  lines 294-295) is modelled by a parameter `getD : Nat → Option Nat`:
  `none` means the context does not expose the capability.
-/

namespace LimeSM

/-- One callback registration: the `[active, f, context]` tuple pushed by
`schedule` (line 141 of schedulemanager.js). -/
structure Reg where
  active : Bool
  cb : Nat
  ctx : Nat
deriving DecidableEq

/-- `fi[1] == f && fi[2] == context` (line 161). -/
def Reg.isMatch (r : Reg) (f c : Nat) : Bool :=
  r.cb == f && r.ctx == c

/-- `lime.scheduleManager.Task` (lines 59-63): `delta` is the running
accumulator, `maxdelta` the cadence, `limit` the remaining fire count
(-1 = unlimited), `functionStack` the registrations. -/
structure Task where
  maxdelta : Int
  delta : Int
  limit : Int
  functionStack : List Reg
deriving DecidableEq

/-- `new lime.scheduleManager.Task(maxdelta, opt_limit)`:
`this.delta = this.maxdelta = maxdelta; this.limit = opt_limit or -1;
this.functionStack_ = []`. -/
def mkTask (maxdelta limit : Int) : Task :=
  { maxdelta := maxdelta, delta := maxdelta, limit := limit, functionStack := [] }

/-- The scheduler singleton's state (lines 14-51): `taskStack_`, `active_`,
`displayRate_`, `lastRunTime_`.  The `intervalID_` field and the
requestAnimationFrame plumbing are host-environment handles with no bearing on
the modelled behaviour and are omitted. -/
structure SM where
  taskStack : List Task
  active : Bool
  displayRate : ℚ
  lastRunTime : Int
deriving DecidableEq

/-- The initial state: lines 21-49 plus the default task pushed on line 95
(`taskStack_.push(new Task(0))`, `opt_limit` undefined hence -1). -/
def init : SM :=
  { taskStack := [mkTask 0 (-1)], active := false,
    displayRate := 1000/30, lastRunTime := 0 }

/-- A recorded callback invocation `(f[1]).call(f[2], delta)` (line 84). -/
structure Call where
  cb : Nat
  ctx : Nat
  dt : Int
deriving DecidableEq

/-- `lime.scheduleManager.disable_` (lines 213-229).  Clearing the interval /
animation-frame subscription is host-side; the modelled effect is
`active_ = false`. -/
def disable (s : SM) : SM :=
  if s.active = false then s else { s with active := false }

/-- `lime.scheduleManager.activate_` (lines 182-204).  `now` is the value of
`goog.now()` read on line 185; starting the host timer is not modelled. -/
def activate (now : Int) (s : SM) : SM :=
  if s.active then s else { s with lastRunTime := now, active := true }

/-- The inner loop of `unschedule` over one task's `functionStack_`
(lines 158-165): `i` counts down from the stack length; each matching tuple is
removed with `goog.array.remove(functionStack_, fi)`.  Every registration
tuple is a distinct heap object (a fresh `[1, f, context]` array per
`schedule` call), so the `===`-based search of `goog.array.remove` deletes
exactly the element at index `i`, modelled by `eraseIdx`. -/
def unschedStackLoop (f c : Nat) : Nat → List Reg → List Reg
  | 0, stack => stack
  | i + 1, stack =>
    let stack' :=
      match stack[i]? with
      | some fi => if fi.isMatch f c then stack.eraseIdx i else stack
      | none => stack
    unschedStackLoop f c i stack'

/-- The outer loop of `unschedule` over `taskStack_` (lines 155-169): `j`
counts down; each task's stack is filtered by `unschedStackLoop`.  The
subsequent `if (functionStack_.length == 0 && j != 0)
goog.array.remove(this.taskStack_, functionStack_)` (lines 166-168) searches
`taskStack_` for the *registration array* of task `j`.  `taskStack_` holds
only `Task` objects (pushed on lines 95 and 142), and a `Task` object is never
`===` its own `functionStack_` array, so that call never finds a match and
removes nothing; the model therefore leaves the task list unchanged at that
point. -/
def unscheduleTasksLoop (f c : Nat) : Nat → List Task → List Task
  | 0, ts => ts
  | j + 1, ts =>
    let ts' :=
      match ts[j]? with
      | some t =>
        let t' : Task := { t with functionStack := unschedStackLoop f c t.functionStack.length t.functionStack }
        ts.set j t'
      | none => ts
    unscheduleTasksLoop f c j ts'

/-- `lime.scheduleManager.unschedule` (lines 154-175): scan every task,
remove every matching registration, then stop the timer when only the default
task remains and it is empty (`taskStack_.length == 1 &&
taskStack_[0].functionStack_.length == 0`). -/
def unschedule (f c : Nat) (s : SM) : SM :=
  let ts := unscheduleTasksLoop f c s.taskStack.length s.taskStack
  let s' := { s with taskStack := ts }
  match ts with
  | [t0] => if t0.functionStack.length = 0 then disable s' else s'
  | _ => s'

/-- The `opt_task` argument of `schedule`.  In the source it is either omitted
(`taskStack_[0]`, modelled by `existing 0`), a `Task` object already present
in `taskStack_` (modelled by its position, `existing j`; the
`goog.array.insert(this.taskStack_, task)` on line 142 then finds the object
and inserts nothing), or a freshly constructed `Task` not yet in the stack, as
built by `scheduleWithDelay` (modelled by `fresh maxdelta limit`; the insert
then appends it). -/
inductive TaskRef where
  | existing : Nat → TaskRef
  | fresh : Int → Int → TaskRef
deriving DecidableEq

/-- `lime.scheduleManager.schedule` (lines 139-146).  The registration insert
`goog.array.insert(task.functionStack_, [1, f, context])` receives a freshly
allocated tuple; the `===`-based containment check of `goog.array.insert`
never matches an existing element, so the tuple is pushed unconditionally.
`now` is the `goog.now()` value read if `activate_` runs. -/
def schedule (now : Int) (f c : Nat) (tr : TaskRef) (s : SM) : SM :=
  let s1 :=
    match tr with
    | .existing j =>
      match s.taskStack[j]? with
      | some t =>
        let t' : Task := { t with functionStack := t.functionStack ++ [⟨true, f, c⟩] }
        { s with taskStack := s.taskStack.set j t' }
      | none => s
    | .fresh maxdelta limit =>
      let newTask : Task := { mkTask maxdelta limit with functionStack := [⟨true, f, c⟩] }
      { s with taskStack := s.taskStack ++ [newTask] }
  if s1.active = false then activate now s1 else s1

/-- `lime.scheduleManager.scheduleWithDelay` (lines 322-326): a fresh
`Task(delay, opt_limit)` handed to `schedule`. -/
def scheduleWithDelay (now : Int) (f c : Nat) (delay limit : Int) (s : SM) : SM :=
  schedule now f c (.fresh delay limit) s

/-- `lime.scheduleManager.callAfter` (lines 310-312):
`scheduleWithDelay(f, context, delay, 1)`. -/
def callAfter (now : Int) (f c : Nat) (delay : Int) (s : SM) : SM :=
  scheduleWithDelay now f c delay 1 s

/-- `lime.scheduleManager.changeDirectorActivity` (lines 286-302).  The two
nested reverse loops only perform the pointwise assignment `f[0] = value` on
registrations whose context exposes `getDirector` and reports the given
director, so the net effect is a map. -/
def changeDirectorActivity (getD : Nat → Option Nat) (director : Nat)
    (value : Bool) (s : SM) : SM :=
  { s with taskStack := s.taskStack.map (fun t =>
      { t with functionStack := t.functionStack.map (fun r =>
          if getD r.ctx = some director then { r with active := value } else r) }) }

/-- The `functionStack_` of task `j` as read through the live state.  Inside
`dispatch_` the task exists, so the `[]` default is never reached there. -/
def liveStack (s : SM) (j : Nat) : List Reg :=
  ((s.taskStack[j]?).map Task.functionStack).getD []

/-- Re-entrant `unschedule` calls performed by an invoked callback, in order. -/
def runEffects (effs : List (Nat × Nat)) (s : SM) : SM :=
  effs.foldl (fun acc p => unschedule p.1 p.2 acc) s

/-- The firing loop of `Task.prototype.step_` (lines 79-85):
`i` counts down from the stack length captured at loop entry; each iteration
re-reads the live `functionStack_[i]` (which re-entrant `unschedule` calls may
have shrunk), assigns it to `f` (modelled by the `Option Reg` component;
`none` is JS `undefined`), and invokes it when `f && f[0] &&
goog.isFunction(f[1])` holds, whereupon the callback's re-entrant effects run
against the whole scheduler state.  `activePass` is the invocation guard
`f[0] && goog.isFunction(f[1])` of line 83. -/
def activePass (isFn : Nat → Bool) (r : Reg) : Bool := r.active && isFn r.cb

def fireLoop (isFn : Nat → Bool) (eff : Nat → Nat → List (Nat × Nat)) (j : Nat)
    (fired : Int) :
    Nat → SM → Option Reg → List Call → SM × Option Reg × List Call
  | 0, s, fLast, tr => (s, fLast, tr)
  | i + 1, s, _, tr =>
    match (liveStack s j)[i]? with
    | some r =>
      if activePass isFn r then
        fireLoop isFn eff j fired i (runEffects (eff r.cb r.ctx) s) (some r)
          (tr ++ [⟨r.cb, r.ctx, fired⟩])
      else
        fireLoop isFn eff j fired i s (some r) tr
    | none => fireLoop isFn eff j fired i s none tr

/-- `Task.prototype.step_` (lines 70-93) for the task at position `j` of the
live `taskStack_`.  Returns `none` when the JS code would throw: the limit
teardown `lime.scheduleManager.unschedule(f[1], f[2])` (line 89) dereferences
`f`, which is `undefined` when the last loop iteration read past the end of a
stack emptied by re-entrant unscheduling. -/
def stepTask (isFn : Nat → Bool) (eff : Nat → Nat → List (Nat × Nat)) (j : Nat)
    (dt : Int) (s : SM) : Option (SM × List Call) :=
  match s.taskStack[j]? with
  | none => some (s, [])
  | some t =>
    if t.functionStack.length = 0 then some (s, [])
    else if t.delta > dt then
      some ({ s with taskStack := s.taskStack.set j ({ t with delta := t.delta - dt }) }, [])
    else
      let fired := t.maxdelta + dt - t.delta
      let d0 := t.maxdelta - (dt - t.delta)
      let d1 := if d0 < 0 then 0 else d0
      let s1 := { s with taskStack := s.taskStack.set j ({ t with delta := d1 }) }
      match fireLoop isFn eff j fired t.functionStack.length s1 none [] with
      | (s2, fLast, tr) =>
        match s2.taskStack[j]? with
        | none => some (s2, tr)
        | some t2 =>
          if t2.limit ≠ -1 then
            let s3 := { s2 with taskStack := s2.taskStack.set j ({ t2 with limit := t2.limit - 1 }) }
            if t2.limit - 1 = 0 then
              match fLast with
              | some r => some (unschedule r.cb r.ctx s3, tr)
              | none => none
            else some (s3, tr)
          else some (s2, tr)

/-- The loop of `dispatch_` (lines 273-278): `i` counts down from
`taskStack_.length`, stepping each task against the live state. -/
def dispatchLoop (isFn : Nat → Bool) (eff : Nat → Nat → List (Nat × Nat))
    (dt : Int) : Nat → SM → List Call → Option (SM × List Call)
  | 0, s, tr => some (s, tr)
  | j + 1, s, tr =>
    match stepTask isFn eff j dt s with
    | some (s', tr') => dispatchLoop isFn eff dt j s' (tr ++ tr')
    | none => none

/-- `lime.scheduleManager.dispatch_` (lines 273-278). -/
def dispatch (isFn : Nat → Bool) (eff : Nat → Nat → List (Nat × Nat))
    (dt : Int) (s : SM) : Option (SM × List Call) :=
  dispatchLoop isFn eff dt s.taskStack.length s []

/-- The delta computation of `stepTimer_` (lines 260-262):
`delta = curTime - lastRunTime_; if (delta < 0) delta = 1`. -/
def stepTimerDelta (now : Int) (s : SM) : Int :=
  if now - s.lastRunTime < 0 then 1 else now - s.lastRunTime

/-- `lime.scheduleManager.stepTimer_` (lines 258-265): compute the delta from
`goog.now()`, dispatch it, then record `lastRunTime_ = curTime`. -/
def stepTimer (isFn : Nat → Bool) (eff : Nat → Nat → List (Nat × Nat))
    (now : Int) (s : SM) : Option (SM × List Call) :=
  (dispatch isFn eff (stepTimerDelta now s) s).map
    (fun p => ({ p.1 with lastRunTime := now }, p.2))

/-- `lime.scheduleManager.setDisplayRate` (lines 123-129). -/
def setDisplayRate (now : Int) (value : ℚ) (s : SM) : SM :=
  let s1 := { s with displayRate := value }
  if s1.active then activate now (disable s1) else s1

/-- Callbacks that perform no re-entrant calls. -/
def noEff : Nat → Nat → List (Nat × Nat) := fun _ _ => []

/-- Every callback identifier denotes an actual function. -/
def allFn : Nat → Bool := fun _ => true

/-- A sequence of clock ticks fed to `dispatch_`, concatenating the
invocation traces.  This is the harness composing ticks, not source code. -/
def runDispatches (isFn : Nat → Bool) (eff : Nat → Nat → List (Nat × Nat)) :
    List Int → SM → Option (SM × List Call)
  | [], s => some (s, [])
  | d :: ds, s =>
    match dispatch isFn eff d s with
    | some (s', tr) =>
      match runDispatches isFn eff ds s' with
      | some (s'', tr') => some (s'', tr ++ tr')
      | none => none
    | none => none

end LimeSM

namespace LimeSM

/-! ### Characterisation of `unschedule` -/

/-- The registrations kept by one `unschedule(f, c)` pass. -/
def regKeep (f c : Nat) (r : Reg) : Bool := !(r.isMatch f c)

/-- Net effect of one `unschedule(f, c)` pass on a single task. -/
def taskUnsched (f c : Nat) (t : Task) : Task :=
  { t with functionStack := t.functionStack.filter (regKeep f c) }

theorem unschedStackLoop_aux (f c : Nat) :
    ∀ (i : Nat) (l : List Reg), i ≤ l.length →
      unschedStackLoop f c i l = (l.take i).filter (regKeep f c) ++ l.drop i := by
  intro i
  induction i with
  | zero => intro l _; simp [unschedStackLoop]
  | succ i ih =>
    intro l hle
    have hi : i < l.length := Nat.lt_of_succ_le hle
    have hget : l[i]? = some l[i] := List.getElem?_eq_getElem hi
    have htake : l.take (i+1) = l.take i ++ [l[i]] := by
      rw [List.take_succ, hget]; rfl
    by_cases hm : l[i].isMatch f c
    · have hstep : unschedStackLoop f c (i+1) l = unschedStackLoop f c i (l.eraseIdx i) := by
        simp [unschedStackLoop, hget, hm]
      have hlen : i ≤ (l.eraseIdx i).length := by
        rw [List.length_eraseIdx_of_lt hi]; omega
      rw [hstep, ih _ hlen, List.eraseIdx_eq_take_drop_succ]
      have h1 : (l.take i ++ l.drop (i+1)).take i = l.take i := by
        rw [List.take_append_eq_append_take]
        simp [List.take_take, Nat.le_of_lt hi]
      have h2 : (l.take i ++ l.drop (i+1)).drop i = l.drop (i+1) := by
        rw [List.drop_append_eq_append_drop]
        simp [Nat.le_of_lt hi, List.length_take, Nat.min_eq_left (Nat.le_of_lt hi)]
      rw [h1, h2, htake, List.filter_append]
      simp [regKeep, hm]
    · have hstep : unschedStackLoop f c (i+1) l = unschedStackLoop f c i l := by
        simp [unschedStackLoop, hget, hm]
      rw [hstep, ih _ (Nat.le_of_lt hi), htake, List.filter_append]
      have hdrop : l.drop i = l[i] :: l.drop (i+1) := List.drop_eq_getElem_cons hi
      rw [hdrop]
      simp only [List.filter_cons, List.filter_nil, regKeep, hm]
      simp

theorem unschedStackLoop_eq_filter (f c : Nat) (l : List Reg) :
    unschedStackLoop f c l.length l = l.filter (regKeep f c) := by
  rw [unschedStackLoop_aux f c l.length l (Nat.le_refl _)]
  simp

theorem unscheduleTasksLoop_aux (f c : Nat) :
    ∀ (j : Nat) (ts : List Task), j ≤ ts.length →
      unscheduleTasksLoop f c j ts = (ts.take j).map (taskUnsched f c) ++ ts.drop j := by
  intro j
  induction j with
  | zero => intro ts _; simp [unscheduleTasksLoop]
  | succ j ih =>
    intro ts hle
    have hj : j < ts.length := Nat.lt_of_succ_le hle
    have hget : ts[j]? = some ts[j] := List.getElem?_eq_getElem hj
    have htake : ts.take (j+1) = ts.take j ++ [ts[j]] := by
      rw [List.take_succ, hget]; rfl
    have hstep : unscheduleTasksLoop f c (j+1) ts
        = unscheduleTasksLoop f c j (ts.set j (taskUnsched f c ts[j])) := by
      simp [unscheduleTasksLoop, hget, taskUnsched, unschedStackLoop_eq_filter]
    have hset : ts.set j (taskUnsched f c ts[j])
        = ts.take j ++ taskUnsched f c ts[j] :: ts.drop (j+1) :=
      List.set_eq_take_cons_drop _ hj
    have hlen : j ≤ (ts.set j (taskUnsched f c ts[j])).length := by
      simp; omega
    rw [hstep, ih _ hlen, hset]
    have h1 : (ts.take j ++ taskUnsched f c ts[j] :: ts.drop (j+1)).take j = ts.take j := by
      rw [List.take_append_eq_append_take]
      simp [List.take_take, Nat.le_of_lt hj]
    have h2 : (ts.take j ++ taskUnsched f c ts[j] :: ts.drop (j+1)).drop j
        = taskUnsched f c ts[j] :: ts.drop (j+1) := by
      rw [List.drop_append_eq_append_drop]
      simp [Nat.le_of_lt hj, List.length_take, Nat.min_eq_left (Nat.le_of_lt hj)]
    rw [h1, h2, htake, List.map_append]
    simp

theorem unscheduleTasksLoop_eq_map (f c : Nat) (ts : List Task) :
    unscheduleTasksLoop f c ts.length ts = ts.map (taskUnsched f c) := by
  rw [unscheduleTasksLoop_aux f c ts.length ts (Nat.le_refl _)]
  simp

theorem set_getElem_self {α : Type} (l : List α) (j : Nat) (a : α)
    (h : l[j]? = some a) : l.set j a = l := by
  apply List.ext_getElem?
  intro k
  by_cases hk : j = k
  · subst hk
    rw [List.getElem?_set_self (by
      have := List.getElem?_eq_some_iff.mp h
      exact this.1)]
    exact h.symm
  · rw [List.getElem?_set_ne hk]

theorem disable_taskStack (s : SM) : (disable s).taskStack = s.taskStack := by
  unfold disable; split <;> rfl

theorem unschedule_taskStack (f c : Nat) (s : SM) :
    (unschedule f c s).taskStack = s.taskStack.map (taskUnsched f c) := by
  unfold unschedule
  rw [unscheduleTasksLoop_eq_map]
  dsimp only
  split
  · split <;> simp [disable_taskStack]
  · rfl

end LimeSM

namespace LimeSM

/-! ### The firing loop under non-re-entrant callbacks -/

/-- The calls `step_` makes when iterating `l` in reverse without re-entrant
mutation: most recently registered first, each reported elapsed time `fired`. -/
def pureCalls (isFn : Nat → Bool) (fired : Int) (l : List Reg) : List Call :=
  (l.reverse.filter (activePass isFn)).map (fun r => ⟨r.cb, r.ctx, fired⟩)

theorem pureCalls_nil (isFn : Nat → Bool) (fired : Int) :
    pureCalls isFn fired [] = [] := rfl

theorem pureCalls_take_succ (isFn : Nat → Bool) (fired : Int) (l : List Reg)
    (i : Nat) (hi : i < l.length) :
    pureCalls isFn fired (l.take (i+1))
      = (if activePass isFn l[i] then [⟨l[i].cb, l[i].ctx, fired⟩] else [])
        ++ pureCalls isFn fired (l.take i) := by
  have hget : l[i]? = some l[i] := List.getElem?_eq_getElem hi
  have htake : l.take (i+1) = l.take i ++ [l[i]] := by
    rw [List.take_succ, hget]; rfl
  rw [pureCalls, htake, List.reverse_append]
  simp only [List.reverse_cons, List.reverse_nil, List.nil_append, List.singleton_append,
    List.filter_cons, List.map_append, List.map_cons]
  split <;> simp [pureCalls]

theorem runEffects_nil (s : SM) : runEffects [] s = s := rfl

theorem fireLoop_quiet (isFn : Nat → Bool) (eff : Nat → Nat → List (Nat × Nat))
    (j : Nat) (fired : Int) :
    ∀ (i : Nat) (s : SM) (f0 : Option Reg) (tr : List Call),
      i ≤ (liveStack s j).length →
      (∀ k, k < i → ∀ r, (liveStack s j)[k]? = some r →
        activePass isFn r = true → eff r.cb r.ctx = []) →
      fireLoop isFn eff j fired i s f0 tr =
        (s, (if i = 0 then f0 else (liveStack s j)[0]?),
         tr ++ pureCalls isFn fired ((liveStack s j).take i)) := by
  intro i
  induction i with
  | zero => intro s f0 tr _ _; simp [fireLoop, pureCalls]
  | succ i ih =>
    intro s f0 tr hle hq
    have hi : i < (liveStack s j).length := Nat.lt_of_succ_le hle
    have hget : (liveStack s j)[i]? = some (liveStack s j)[i] := List.getElem?_eq_getElem hi
    have h0 : (liveStack s j)[0]? = some (liveStack s j)[0] :=
      List.getElem?_eq_getElem (Nat.lt_of_le_of_lt (Nat.zero_le i) hi)
    by_cases hpass : activePass isFn (liveStack s j)[i]
    · have heff : eff (liveStack s j)[i].cb (liveStack s j)[i].ctx = [] :=
        hq i (Nat.lt_succ_self i) _ hget hpass
      have hstep : fireLoop isFn eff j fired (i+1) s f0 tr
          = fireLoop isFn eff j fired i s (some (liveStack s j)[i])
              (tr ++ [⟨(liveStack s j)[i].cb, (liveStack s j)[i].ctx, fired⟩]) := by
        simp only [fireLoop, hget]
        rw [if_pos hpass, heff, runEffects_nil]
      rw [hstep, ih _ _ _ (Nat.le_of_lt hi) (fun k hk => hq k (Nat.lt_succ_of_lt hk))]
      rw [pureCalls_take_succ isFn fired _ i hi, if_pos hpass]
      by_cases h0i : i = 0
      · subst h0i; simp [h0]
      · simp [h0i]
    · have hstep : fireLoop isFn eff j fired (i+1) s f0 tr
          = fireLoop isFn eff j fired i s (some (liveStack s j)[i]) tr := by
        simp only [fireLoop, hget]
        rw [if_neg hpass]
      rw [hstep, ih _ _ _ (Nat.le_of_lt hi) (fun k hk => hq k (Nat.lt_succ_of_lt hk))]
      rw [pureCalls_take_succ isFn fired _ i hi, if_neg hpass]
      by_cases h0i : i = 0
      · subst h0i; simp [h0]
      · simp [h0i]

end LimeSM

namespace LimeSM

/-! ### `step_` under non-re-entrant callbacks -/

/-- Elapsed time reported to callbacks on a firing tick (line 76). -/
def firedOf (t : Task) (dt : Int) : Int := t.maxdelta + dt - t.delta

/-- The accumulator after a firing tick (lines 77-78). -/
def newDelta (t : Task) (dt : Int) : Int :=
  if t.maxdelta - (dt - t.delta) < 0 then 0 else t.maxdelta - (dt - t.delta)

theorem liveStack_of_getElem (s : SM) (j : Nat) (t : Task)
    (hj : s.taskStack[j]? = some t) : liveStack s j = t.functionStack := by
  simp [liveStack, hj]

theorem stepTask_quiet (isFn : Nat → Bool) (eff : Nat → Nat → List (Nat × Nat))
    (j : Nat) (dt : Int) (s : SM) (t : Task) (h : Reg)
    (hj : s.taskStack[j]? = some t)
    (hq : ∀ r ∈ t.functionStack, activePass isFn r = true → eff r.cb r.ctx = [])
    (hhead : t.functionStack[0]? = some h)
    (hfire : ¬ t.delta > dt) :
    stepTask isFn eff j dt s =
      some
        ((if t.limit = -1 then
            { s with taskStack := s.taskStack.set j { t with delta := newDelta t dt } }
          else if t.limit = 1 then
            unschedule h.cb h.ctx
              { s with taskStack := s.taskStack.set j { t with delta := newDelta t dt, limit := t.limit - 1 } }
          else
            { s with taskStack := s.taskStack.set j { t with delta := newDelta t dt, limit := t.limit - 1 } }),
         pureCalls isFn (firedOf t dt) t.functionStack) := by
  have hjlt : j < s.taskStack.length := (List.getElem?_eq_some_iff.mp hj).1
  have hne : t.functionStack.length ≠ 0 := by
    intro h0
    rw [List.length_eq_zero] at h0
    rw [h0] at hhead
    simp at hhead
  have hset : (s.taskStack.set j { t with delta := newDelta t dt })[j]? = some { t with delta := newDelta t dt } :=
    List.getElem?_set_self (by simpa using hjlt)
  have hlive : liveStack { s with taskStack := s.taskStack.set j { t with delta := newDelta t dt } } j
      = t.functionStack := by
    simp [liveStack, hset]
  have hfl := fireLoop_quiet isFn eff j (firedOf t dt) t.functionStack.length
    { s with taskStack := s.taskStack.set j { t with delta := newDelta t dt } } none []
    (by rw [hlive]) (by
      rw [hlive]
      intro k hk r hget hap
      exact hq r (List.getElem?_mem hget) hap)
  rw [hlive] at hfl
  rw [List.take_length] at hfl
  rw [if_neg hne, hhead] at hfl
  simp only [firedOf, newDelta] at hfl hset
  simp only [stepTask, hj, firedOf, newDelta]
  rw [if_neg hne, if_neg hfire, hfl]
  simp only [hset]
  by_cases hm1 : t.limit = -1
  · simp [hm1]
  · by_cases hl1 : t.limit = 1
    · simp [hm1, hl1, List.set_set]
    · have hz : ¬ (t.limit - 1 = 0) := by omega
      simp [hm1, hl1, hz, List.set_set]

end LimeSM

namespace LimeSM

theorem stepTask_empty (isFn : Nat → Bool) (eff : Nat → Nat → List (Nat × Nat))
    (j : Nat) (dt : Int) (s : SM) (t : Task)
    (hj : s.taskStack[j]? = some t) (hemp : t.functionStack.length = 0) :
    stepTask isFn eff j dt s = some (s, []) := by
  simp only [stepTask, hj]
  rw [if_pos hemp]

theorem stepTask_accum (isFn : Nat → Bool) (eff : Nat → Nat → List (Nat × Nat))
    (j : Nat) (dt : Int) (s : SM) (t : Task)
    (hj : s.taskStack[j]? = some t) (hne : t.functionStack.length ≠ 0)
    (hacc : t.delta > dt) :
    stepTask isFn eff j dt s =
      some ({ s with taskStack := s.taskStack.set j { t with delta := t.delta - dt } }, []) := by
  simp only [stepTask, hj]
  rw [if_neg hne, if_pos hacc]

theorem stepTask_oob (isFn : Nat → Bool) (eff : Nat → Nat → List (Nat × Nat))
    (j : Nat) (dt : Int) (s : SM) (hj : s.taskStack[j]? = none) :
    stepTask isFn eff j dt s = some (s, []) := by
  simp only [stepTask, hj]

theorem newDelta_eq_max (t : Task) (dt : Int) :
    newDelta t dt = max 0 (t.maxdelta - (dt - t.delta)) := by
  unfold newDelta
  split
  · exact (max_eq_left (le_of_lt (by assumption))).symm
  · exact (max_eq_right (not_lt.mp (by assumption))).symm

theorem pureCalls_allFn (isFn : Nat → Bool) (fired : Int) (l : List Reg)
    (hfn : ∀ r ∈ l, isFn r.cb = true) :
    pureCalls isFn fired l
      = (l.reverse.filter (fun r => r.active)).map (fun r => ⟨r.cb, r.ctx, fired⟩) := by
  unfold pureCalls
  congr 1
  apply List.filter_congr
  intro r hr
  have := hfn r (List.mem_reverse.mp hr)
  simp [activePass, this]

/-- C4.  With the task at position `j` holding a non-empty registration list:
if the accumulator exceeds the tick delta, `step_` only decreases the
accumulator by the delta and invokes nothing; otherwise it invokes every
active registration in reverse insertion order with
`firedDelta = cadence + delta - accumulator` and sets the accumulator to
`max 0 (cadence - (delta - accumulator))`; consequently a default-style task
(cadence 0, accumulator 0) fires on every dispatch with the raw tick delta.
`isFn` abstracts `goog.isFunction`; `hfn` states that all registered
callbacks are actual functions, which is what the claim presumes. -/
theorem c4_step (isFn : Nat → Bool) (j : Nat) (dt : Int) (s : SM) (t : Task)
    (hj : s.taskStack[j]? = some t) (hne : t.functionStack ≠ [])
    (hfn : ∀ r ∈ t.functionStack, isFn r.cb = true) :
    (t.delta > dt →
      stepTask isFn noEff j dt s
        = some ({ s with taskStack := s.taskStack.set j { t with delta := t.delta - dt } }, []))
    ∧ (¬ t.delta > dt →
      ∃ s', stepTask isFn noEff j dt s
          = some (s', (t.functionStack.reverse.filter (fun r => r.active)).map
              (fun r => ⟨r.cb, r.ctx, t.maxdelta + dt - t.delta⟩))
        ∧ (s'.taskStack[j]?).map Task.delta
            = some (max 0 (t.maxdelta - (dt - t.delta))))
    ∧ (t.maxdelta = 0 → t.delta = 0 → 0 ≤ dt →
      ∃ s', stepTask isFn noEff j dt s
          = some (s', (t.functionStack.reverse.filter (fun r => r.active)).map
              (fun r => ⟨r.cb, r.ctx, dt⟩))) := by
  have hlen : t.functionStack.length ≠ 0 := by
    intro h0; exact hne (List.length_eq_zero.mp h0)
  have hjlt : j < s.taskStack.length := (List.getElem?_eq_some_iff.mp hj).1
  have hhead : t.functionStack[0]? = some t.functionStack[0] :=
    List.getElem?_eq_getElem (Nat.pos_of_ne_zero hlen)
  have hfirecase : ∀ hfire : ¬ t.delta > dt,
      ∃ s', stepTask isFn noEff j dt s
          = some (s', (t.functionStack.reverse.filter (fun r => r.active)).map
              (fun r => ⟨r.cb, r.ctx, t.maxdelta + dt - t.delta⟩))
        ∧ (s'.taskStack[j]?).map Task.delta
            = some (max 0 (t.maxdelta - (dt - t.delta))) := by
    intro hfire
    have hq : ∀ r ∈ t.functionStack, activePass isFn r = true → noEff r.cb r.ctx = [] := by
      intro r _ _; rfl
    have hstep := stepTask_quiet isFn noEff j dt s t _ hj hq hhead hfire
    rw [pureCalls_allFn isFn _ _ hfn] at hstep
    refine ⟨_, by rw [hstep, firedOf], ?_⟩
    rw [← newDelta_eq_max]
    by_cases hm1 : t.limit = -1
    · rw [if_pos hm1]
      have : (s.taskStack.set j { t with delta := newDelta t dt })[j]?
          = some { t with delta := newDelta t dt } :=
        List.getElem?_set_self (by simpa using hjlt)
      simp [this]
    · rw [if_neg hm1]
      by_cases hl1 : t.limit = 1
      · rw [if_pos hl1]
        have hinner : (s.taskStack.set j { t with delta := newDelta t dt, limit := t.limit - 1 })[j]?
            = some { t with delta := newDelta t dt, limit := t.limit - 1 } :=
          List.getElem?_set_self (by simpa using hjlt)
        rw [unschedule_taskStack]
        rw [List.getElem?_map, hinner]
        rfl
      · rw [if_neg hl1]
        have hinner : (s.taskStack.set j { t with delta := newDelta t dt, limit := t.limit - 1 })[j]?
            = some { t with delta := newDelta t dt, limit := t.limit - 1 } :=
          List.getElem?_set_self (by simpa using hjlt)
        simp [hinner]
  refine ⟨?_, hfirecase, ?_⟩
  · intro hacc
    exact stepTask_accum isFn noEff j dt s t hj hlen hacc
  · intro hm0 hd0 hdt
    have hfire : ¬ t.delta > dt := by rw [hd0]; omega
    obtain ⟨s', hs', -⟩ := hfirecase hfire
    refine ⟨s', ?_⟩
    rw [hs', hm0, hd0]
    norm_num

/-- Witness for C4 at a concrete default-style task and a 16 ms tick. -/
theorem c4_step_witness :
    ∃ s', stepTask allFn noEff 0 16 ⟨[⟨0, 0, -1, [⟨true, 1, 2⟩]⟩], true, 0, 0⟩
        = some (s', [⟨1, 2, 16⟩]) := by
  obtain ⟨-, -, h3⟩ := c4_step allFn 0 16 ⟨[⟨0, 0, -1, [⟨true, 1, 2⟩]⟩], true, 0, 0⟩
    ⟨0, 0, -1, [⟨true, 1, 2⟩]⟩ rfl (by decide) (by intro r _; rfl)
  obtain ⟨s', hs'⟩ := h3 rfl rfl (by decide)
  exact ⟨s', by simpa using hs'⟩

end LimeSM

namespace LimeSM

/-! ### Activation and deactivation of the clock source -/

theorem schedule_sets_when_idle (now : Int) (f c : Nat) (tr : TaskRef) (s : SM)
    (hidle : s.active = false) :
    (schedule now f c tr s).lastRunTime = now ∧ (schedule now f c tr s).active = true := by
  unfold schedule
  cases tr with
  | existing j =>
    cases hj : s.taskStack[j]? with
    | none => simp [hj, activate, hidle]
    | some t => simp [hj, activate, hidle]
  | fresh m l => simp [activate, hidle]

theorem setDisplayRate_restarts (now : Int) (v : ℚ) (s : SM) (hrun : s.active = true) :
    (setDisplayRate now v s).lastRunTime = now ∧ (setDisplayRate now v s).active = true := by
  simp [setDisplayRate, disable, activate, hrun]

/-- C1.  The claim `active_ ↔ some registration exists` fails: after
`callAfter` registers callback 1 / context 2 on a fresh task and `unschedule`
removes that (only) registration, every task is empty yet `active_` is still
`true`.  Line 167 (`goog.array.remove(this.taskStack_, functionStack_)`)
removes the registration array, not the `Task`, from `taskStack_`, so the
emptied task lingers, `taskStack_.length == 1` on line 171 is false, and
`disable_` is never called. -/
theorem c1_clock_left_running :
    (unschedule 1 2 (callAfter 0 1 2 100 init)).active = true
      ∧ ∀ t ∈ (unschedule 1 2 (callAfter 0 1 2 100 init)).taskStack, t.functionStack = [] := by
  decide

/-- C2.  The claim that an emptied non-default task is removed from the task
collection fails: after `callAfter` (task at slot 1) and `unschedule` of its
only registration, the task stack still has length 2 and slot 1 holds the
emptied task. -/
theorem c2_empty_task_not_removed :
    (unschedule 1 2 (callAfter 0 1 2 100 init)).taskStack.length = 2
      ∧ ((unschedule 1 2 (callAfter 0 1 2 100 init)).taskStack[1]?).map Task.functionStack
          = some [] := by
  decide

/-- C3.  The claim that scheduling the same `(callback, context)` twice on
the same task keeps a single registration fails: `goog.array.insert` compares
the freshly allocated `[1, f, context]` tuple by identity, never finds it, and
pushes a duplicate.  Two identical `schedule` calls on the default task leave
two registrations. -/
theorem c3_duplicate_insert :
    ((schedule 0 1 2 (TaskRef.existing 0) (schedule 0 1 2 (TaskRef.existing 0) init)).taskStack[0]?).map
        Task.functionStack = some [⟨true, 1, 2⟩, ⟨true, 1, 2⟩] := by
  decide

/-- C7, counterexample.  `stepTimer_` clamps only a *negative* measured delta
(line 262: `if (delta < 0) delta = 1`).  With `goog.now()` equal to
`lastRunTime_`, the measured delta 0 is handed to `dispatch_` unchanged and
the default-task callback observes elapsed time 0, contradicting the claim
that callbacks never observe a non-positive elapsed time. -/
theorem c7_zero_delta_counterexample :
    stepTimer allFn noEff 5 ⟨[⟨0, 0, -1, [⟨true, 1, 2⟩]⟩], true, 0, 5⟩
      = some (⟨[⟨0, 0, -1, [⟨true, 1, 2⟩]⟩], true, 0, 5⟩, [⟨1, 2, 0⟩]) := by
  decide

/-- C7, amended.  The delta handed to the dispatch path is
`if measured < 0 then 1 else measured`: it is never negative, equals 1
whenever the host clock goes backwards, but a measured delta of exactly 0 is
passed through unclamped. -/
theorem c7_amended_delta_clamp (isFn : Nat → Bool) (eff : Nat → Nat → List (Nat × Nat))
    (now : Int) (s : SM) :
    0 ≤ stepTimerDelta now s
    ∧ stepTimerDelta now s = (if now - s.lastRunTime < 0 then 1 else now - s.lastRunTime)
    ∧ stepTimer isFn eff now s
        = (dispatch isFn eff (stepTimerDelta now s) s).map
            (fun p => ({ p.1 with lastRunTime := now }, p.2)) := by
  refine ⟨?_, rfl, rfl⟩
  unfold stepTimerDelta
  split
  · omega
  · omega

/-- C10.  Every (re)activation of the clock source sets `lastRunTime_` to the
current time: a `schedule` call while the scheduler is idle, and a
`setDisplayRate` call while it is running (which stops and restarts it), both
leave `lastRunTime_ = now` with the scheduler active, so the first
`stepTimer_` delta afterwards measures only the time since that start. -/
theorem c10_activation_resets_timestamp (now t1 : Int) (f c : Nat) (tr : TaskRef)
    (v : ℚ) (s s2 : SM) (hidle : s.active = false) (hrun : s2.active = true) :
    (schedule now f c tr s).lastRunTime = now
    ∧ (schedule now f c tr s).active = true
    ∧ (setDisplayRate now v s2).lastRunTime = now
    ∧ (setDisplayRate now v s2).active = true
    ∧ (now ≤ t1 → stepTimerDelta t1 (schedule now f c tr s) = t1 - now)
    ∧ (now ≤ t1 → stepTimerDelta t1 (setDisplayRate now v s2) = t1 - now) := by
  obtain ⟨hs1, hs2⟩ := schedule_sets_when_idle now f c tr s hidle
  obtain ⟨hd1, hd2⟩ := setDisplayRate_restarts now v s2 hrun
  refine ⟨hs1, hs2, hd1, hd2, ?_, ?_⟩
  · intro hle
    unfold stepTimerDelta
    rw [hs1]
    rw [if_neg (by omega)]
  · intro hle
    unfold stepTimerDelta
    rw [hd1]
    rw [if_neg (by omega)]

/-- Witness for C10 with a concrete idle state, a concrete running state, and
a first tick 8 ms after activation. -/
theorem c10_activation_resets_timestamp_witness :
    (schedule 42 1 2 (TaskRef.existing 0) init).lastRunTime = 42
    ∧ stepTimerDelta 50 (schedule 42 1 2 (TaskRef.existing 0) init) = 8
    ∧ (setDisplayRate 99 5 (schedule 0 1 2 (TaskRef.existing 0) init)).lastRunTime = 99 := by
  obtain ⟨h1, -, -, -, h5, -⟩ := c10_activation_resets_timestamp 42 50 1 2 (TaskRef.existing 0) 5
    init (schedule 0 1 2 (TaskRef.existing 0) init) rfl (by decide)
  obtain ⟨-, -, h3, -, -, -⟩ := c10_activation_resets_timestamp 99 99 1 2 (TaskRef.existing 0) 5
    init (schedule 0 1 2 (TaskRef.existing 0) init) rfl (by decide)
  exact ⟨h1, by rw [h5 (by omega)]; norm_num, h3⟩

end LimeSM

namespace LimeSM

/-! ### Fire-limit teardown -/

/-- C6, counterexample.  A task with `limit = 1` and two registrations; the
later-iterated callback (id 20) re-entrantly unschedules *both* pairs, so the
final loop iteration reads `functionStack_[0]` of an empty array
(`f === undefined`), the invocation guard skips it, and the teardown
`unschedule(f[1], f[2])` on line 89 then dereferences `undefined` and throws
(modelled by `none`), contradicting the claim that the teardown never raises. -/
theorem c6_teardown_throws_counterexample :
    stepTask allFn (fun cbv _ => if cbv = 20 then [(10, 100), (20, 200)] else []) 1 0
      ⟨[⟨0, 0, -1, []⟩, ⟨0, 0, 1, [⟨true, 10, 100⟩, ⟨true, 20, 200⟩]⟩], true, 0, 0⟩
      = none := by
  decide

/-- C6, amended.  On a firing tick of a task with a finite fire limit and
non-re-entrant callbacks: the limit is decremented by one; when it reaches 0
the registration read in the last loop iteration (index 0) is handed to
`unschedule`; and an `unschedule` whose pair is no longer registered anywhere
leaves the task stacks unchanged (a no-op).  The unguarded error case — the
registration list empty at the final loop read — is exhibited separately by
the counterexample. -/
theorem c6_amended_limit_teardown (isFn : Nat → Bool) (j : Nat) (dt : Int)
    (s : SM) (t : Task) (h : Reg)
    (hj : s.taskStack[j]? = some t)
    (hhead : t.functionStack[0]? = some h)
    (hfire : ¬ t.delta > dt)
    (hlim : t.limit ≠ -1) :
    (t.limit ≠ 1 →
      stepTask isFn noEff j dt s
        = some ({ s with taskStack :=
              s.taskStack.set j { t with delta := newDelta t dt, limit := t.limit - 1 } },
            pureCalls isFn (firedOf t dt) t.functionStack))
    ∧ (t.limit = 1 →
      stepTask isFn noEff j dt s
        = some (unschedule h.cb h.ctx
              { s with taskStack :=
                s.taskStack.set j { t with delta := newDelta t dt, limit := t.limit - 1 } },
            pureCalls isFn (firedOf t dt) t.functionStack))
    ∧ (∀ s4 : SM, (∀ tt ∈ s4.taskStack, ∀ r ∈ tt.functionStack,
          r.isMatch h.cb h.ctx = false) →
        (unschedule h.cb h.ctx s4).taskStack = s4.taskStack) := by
  have hq : ∀ r ∈ t.functionStack, activePass isFn r = true → noEff r.cb r.ctx = [] := by
    intro r _ _; rfl
  have hstep := stepTask_quiet isFn noEff j dt s t h hj hq hhead hfire
  refine ⟨?_, ?_, ?_⟩
  · intro hne1
    rw [hstep, if_neg hlim, if_neg hne1]
  · intro heq1
    rw [hstep, if_neg hlim, if_pos heq1]
  · intro s4 hnomatch
    rw [unschedule_taskStack]
    have : ∀ tt ∈ s4.taskStack, taskUnsched h.cb h.ctx tt = tt := by
      intro tt htt
      unfold taskUnsched
      have : tt.functionStack.filter (regKeep h.cb h.ctx) = tt.functionStack := by
        apply List.filter_eq_self.mpr
        intro r hr
        simp [regKeep, hnomatch tt htt r hr]
      rw [this]
    calc s4.taskStack.map (taskUnsched h.cb h.ctx)
        = s4.taskStack.map id := List.map_congr_left this
      _ = s4.taskStack := List.map_id _

/-- Witness for the amended C6 at a one-shot (`callAfter`-shaped) task:
limit 1, cadence 10, one registration, tick of exactly 10 ms. -/
theorem c6_amended_limit_teardown_witness :
    stepTask allFn noEff 1 10
        ⟨[⟨0, 0, -1, []⟩, ⟨10, 10, 1, [⟨true, 1, 2⟩]⟩], true, 0, 0⟩
      = some (⟨[⟨0, 0, -1, []⟩, ⟨10, 10, 0, []⟩], true, 0, 0⟩, [⟨1, 2, 10⟩]) := by
  have h := (c6_amended_limit_teardown allFn 1 10
      ⟨[⟨0, 0, -1, []⟩, ⟨10, 10, 1, [⟨true, 1, 2⟩]⟩], true, 0, 0⟩
      ⟨10, 10, 1, [⟨true, 1, 2⟩]⟩ ⟨true, 1, 2⟩ rfl rfl (by decide) (by decide)).2.1 rfl
  rw [h]
  decide

end LimeSM

namespace LimeSM

/-! ### Self-unscheduling callbacks (re-entrancy) -/

/-- A callback that, when invoked as the pair `(f, c)`, re-entrantly calls
`unschedule(f, c)` — removing its own registration — and does nothing else;
every other callback is non-re-entrant. -/
def selfEff (f c : Nat) : Nat → Nat → List (Nat × Nat) :=
  fun cbv ctxv => if cbv = f ∧ ctxv = c then [(f, c)] else []

theorem selfEff_ne (f c : Nat) (r : Reg) (h : (r.cb, r.ctx) ≠ (f, c)) :
    selfEff f c r.cb r.ctx = [] := by
  unfold selfEff
  rw [if_neg]
  rintro ⟨h1, h2⟩
  exact h (by rw [h1, h2])

theorem selfEff_self (f c : Nat) : selfEff f c f c = [(f, c)] := by
  unfold selfEff
  rw [if_pos ⟨rfl, rfl⟩]

theorem isMatch_false_of_ne (r : Reg) (f c : Nat) (h : (r.cb, r.ctx) ≠ (f, c)) :
    r.isMatch f c = false := by
  unfold Reg.isMatch
  simp only [Bool.and_eq_false_iff, beq_eq_false_iff_ne, ne_eq]
  by_cases h1 : r.cb = f
  · right
    intro h2
    exact h (by rw [h1, h2])
  · left; exact h1

theorem liveStack_unschedule (f c : Nat) (j : Nat) (s : SM) :
    liveStack (unschedule f c s) j = (liveStack s j).filter (regKeep f c) := by
  unfold liveStack
  rw [unschedule_taskStack, List.getElem?_map]
  cases s.taskStack[j]? <;> simp [taskUnsched]

theorem filter_unique_match (f c : Nat) (A B : List Reg) (r0 : Reg)
    (hr0 : r0.isMatch f c = true)
    (hA : ∀ r ∈ A, r.isMatch f c = false) (hB : ∀ r ∈ B, r.isMatch f c = false) :
    (A ++ r0 :: B).filter (regKeep f c) = A ++ B := by
  rw [List.filter_append, List.filter_cons]
  rw [List.filter_eq_self.mpr (fun r hr => by simp [regKeep, hA r hr])]
  rw [List.filter_eq_self.mpr (fun r hr => by simp [regKeep, hB r hr])]
  simp [regKeep, hr0]

theorem pureCalls_append_one (isFn : Nat → Bool) (fired : Int) (l : List Reg)
    (r : Reg) (hp : activePass isFn r = true) :
    pureCalls isFn fired (l ++ [r])
      = ⟨r.cb, r.ctx, fired⟩ :: pureCalls isFn fired l := by
  unfold pureCalls
  rw [List.reverse_append]
  simp [List.filter_cons, hp]

theorem fireLoop_selfRemove (isFn : Nat → Bool) (j : Nat) (fired : Int)
    (A B : List Reg) (r0 : Reg)
    (hr0pass : activePass isFn r0 = true)
    (hA : ∀ r ∈ A, (r.cb, r.ctx) ≠ (r0.cb, r0.ctx))
    (hB : ∀ r ∈ B, (r.cb, r.ctx) ≠ (r0.cb, r0.ctx)) :
    ∀ (m : Nat), m ≤ B.length → ∀ (s : SM) (f0 : Option Reg) (tr : List Call),
      liveStack s j = A ++ r0 :: B →
      fireLoop isFn (selfEff r0.cb r0.ctx) j fired (A.length + 1 + m) s f0 tr
        = (unschedule r0.cb r0.ctx s, (A ++ r0 :: B)[0]?,
           tr ++ pureCalls isFn fired ((A ++ r0 :: B).take (A.length + 1 + m))) := by
  intro m
  induction m with
  | zero =>
    intro _ s f0 tr hlive
    have hread : (liveStack s j)[A.length]? = some r0 := by
      rw [hlive, List.getElem?_append_right (Nat.le_refl _)]
      simp
    have heffs : runEffects (selfEff r0.cb r0.ctx r0.cb r0.ctx) s
        = unschedule r0.cb r0.ctx s := by
      rw [selfEff_self]
      rfl
    have hstep : fireLoop isFn (selfEff r0.cb r0.ctx) j fired (A.length + 1 + 0) s f0 tr
        = fireLoop isFn (selfEff r0.cb r0.ctx) j fired A.length (unschedule r0.cb r0.ctx s)
            (some r0) (tr ++ [⟨r0.cb, r0.ctx, fired⟩]) := by
      simp only [Nat.add_zero, fireLoop, hread]
      rw [if_pos hr0pass, heffs]
    have hlive1 : liveStack (unschedule r0.cb r0.ctx s) j = A ++ B := by
      rw [liveStack_unschedule, hlive]
      exact filter_unique_match r0.cb r0.ctx A B r0 (by simp [Reg.isMatch])
        (fun r hr => isMatch_false_of_ne r _ _ (hA r hr))
        (fun r hr => isMatch_false_of_ne r _ _ (hB r hr))
    have hquiet := fireLoop_quiet isFn (selfEff r0.cb r0.ctx) j fired A.length
      (unschedule r0.cb r0.ctx s) (some r0) (tr ++ [⟨r0.cb, r0.ctx, fired⟩])
      (by rw [hlive1]; simp)
      (by
        rw [hlive1]
        intro k hk r hget _
        have : (A ++ B)[k]? = A[k]? := List.getElem?_append_left hk
        rw [this] at hget
        exact selfEff_ne r0.cb r0.ctx r (hA r (List.getElem?_mem hget)))
    rw [hstep, hquiet, hlive1, List.take_left]
    have htake : (A ++ r0 :: B).take (A.length + 1 + 0) = A ++ [r0] := by
      rw [Nat.add_zero, List.take_append_eq_append_take]
      simp
    rw [htake, pureCalls_append_one isFn fired A r0 hr0pass]
    by_cases hA0 : A.length = 0
    · have hAnil : A = [] := List.length_eq_zero.mp hA0
      subst hAnil
      simp
    · have h0lt : 0 < A.length := Nat.pos_of_ne_zero hA0
      rw [if_neg hA0]
      rw [List.getElem?_append_left h0lt, List.getElem?_append_left h0lt]
      simp
  | succ m ih =>
    intro hm s f0 tr hlive
    have hmB : m < B.length := Nat.lt_of_succ_le hm
    have hgetB : B[m]? = some B[m] := List.getElem?_eq_getElem hmB
    have hread : (liveStack s j)[A.length + 1 + m]? = some B[m] := by
      rw [hlive, List.getElem?_append_right (by omega)]
      have : A.length + 1 + m - A.length = m + 1 := by omega
      rw [this, List.getElem?_cons_succ, hgetB]
    have hidx : A.length + 1 + m < (A ++ r0 :: B).length := by
      simp
      omega
    have hLget : (A ++ r0 :: B)[A.length + 1 + m] = B[m] := by
      have h2 := List.getElem?_eq_getElem hidx
      rw [hlive] at hread
      rw [h2] at hread
      exact Option.some.inj hread
    have hmem : B[m] ∈ B := List.getElem_mem hmB
    have htr : pureCalls isFn fired ((A ++ r0 :: B).take (A.length + 1 + (m + 1)))
        = (if activePass isFn (A ++ r0 :: B)[A.length + 1 + m] then
            [⟨(A ++ r0 :: B)[A.length + 1 + m].cb, (A ++ r0 :: B)[A.length + 1 + m].ctx, fired⟩]
          else [])
          ++ pureCalls isFn fired ((A ++ r0 :: B).take (A.length + 1 + m)) :=
      pureCalls_take_succ isFn fired _ (A.length + 1 + m) hidx
    by_cases hpass : activePass isFn B[m]
    · have heff : selfEff r0.cb r0.ctx B[m].cb B[m].ctx = [] :=
        selfEff_ne _ _ _ (hB _ hmem)
      have hpass' : activePass isFn B[m] = true := hpass
      have hstep : fireLoop isFn (selfEff r0.cb r0.ctx) j fired (A.length + 1 + (m + 1)) s f0 tr
          = fireLoop isFn (selfEff r0.cb r0.ctx) j fired (A.length + 1 + m) s (some B[m])
              (tr ++ [⟨B[m].cb, B[m].ctx, fired⟩]) := by
        show fireLoop isFn (selfEff r0.cb r0.ctx) j fired ((A.length + 1 + m) + 1) s f0 tr = _
        simp only [fireLoop, hread]
        rw [if_pos hpass', heff, runEffects_nil]
      rw [hstep, ih (Nat.le_of_lt hmB) s _ _ hlive, htr, hLget, if_pos hpass']
      simp
    · have hpass' : activePass isFn B[m] = false := by
        simpa using hpass
      have hstep : fireLoop isFn (selfEff r0.cb r0.ctx) j fired (A.length + 1 + (m + 1)) s f0 tr
          = fireLoop isFn (selfEff r0.cb r0.ctx) j fired (A.length + 1 + m) s (some B[m]) tr := by
        show fireLoop isFn (selfEff r0.cb r0.ctx) j fired ((A.length + 1 + m) + 1) s f0 tr = _
        simp only [fireLoop, hread]
        rw [if_neg hpass]
      rw [hstep, ih (Nat.le_of_lt hmB) s _ _ hlive, htr, hLget, if_neg hpass]
      simp

end LimeSM

namespace LimeSM

theorem pureCalls_count_one (isFn : Nat → Bool) (fired : Int) (l : List Reg)
    (hnd : (l.map (fun r => (r.cb, r.ctx))).Nodup)
    (r : Reg) (hr : r ∈ l) (hact : activePass isFn r = true) :
    (pureCalls isFn fired l).count ⟨r.cb, r.ctx, fired⟩ = 1 := by
  have hinj := List.inj_on_of_nodup_map hnd
  have hlnd : l.Nodup := hnd.of_map
  have hfil : (l.reverse.filter (activePass isFn)).Nodup :=
    (List.nodup_reverse.mpr hlnd).filter _
  apply List.count_eq_one_of_mem
  · apply List.Nodup.map_on ?_ hfil
    intro x hx y hy hxy
    have hx' : x ∈ l := List.mem_reverse.mp (List.mem_of_mem_filter hx)
    have hy' : y ∈ l := List.mem_reverse.mp (List.mem_of_mem_filter hy)
    simp only [Call.mk.injEq] at hxy
    exact hinj hx' hy' (by simp [hxy.1, hxy.2.1])
  · exact List.mem_map.mpr ⟨r, List.mem_filter.mpr ⟨List.mem_reverse.mpr hr, hact⟩, rfl⟩

theorem stepTask_fire_exists (isFn : Nat → Bool) (eff : Nat → Nat → List (Nat × Nat))
    (j : Nat) (dt : Int) (s s2 : SM) (t : Task) (h : Reg) (tr : List Call)
    (hj : s.taskStack[j]? = some t)
    (hlen0 : t.functionStack.length ≠ 0)
    (hfire : ¬ t.delta > dt)
    (hfl : fireLoop isFn eff j (t.maxdelta + dt - t.delta) t.functionStack.length
      { s with taskStack := s.taskStack.set j ({ t with delta := if t.maxdelta - (dt - t.delta) < 0 then 0 else t.maxdelta - (dt - t.delta) }) }
      none [] = (s2, some h, tr)) :
    ∃ s', stepTask isFn eff j dt s = some (s', tr) := by
  have hgoal : stepTask isFn eff j dt s
      = (match s2.taskStack[j]? with
         | none => some (s2, tr)
         | some t2 =>
           if t2.limit ≠ -1 then
             if t2.limit - 1 = 0 then
               some (unschedule h.cb h.ctx
                 { s2 with taskStack := s2.taskStack.set j ({ t2 with limit := t2.limit - 1 }) }, tr)
             else
               some ({ s2 with taskStack := s2.taskStack.set j ({ t2 with limit := t2.limit - 1 }) }, tr)
           else some (s2, tr)) := by
    simp only [stepTask, hj]
    rw [if_neg hlen0, if_neg hfire, hfl]
  rw [hgoal]
  cases hs2 : s2.taskStack[j]? with
  | none => exact ⟨s2, by simp only [hs2]⟩
  | some t2 =>
    by_cases hm : t2.limit ≠ -1
    · by_cases hz : t2.limit - 1 = 0
      · exact ⟨_, by simp only [hs2]; rw [if_pos hm, if_pos hz]⟩
      · exact ⟨_, by simp only [hs2]; rw [if_pos hm, if_neg hz]⟩
    · exact ⟨s2, by simp only [hs2]; rw [if_neg hm]⟩

/-- C9.  If during a firing tick of the task at position `j` the invoked
callback `r0` re-entrantly unschedules its own registration, the tick's
invocation trace is exactly the non-re-entrant trace — every registration of
the task that was present and active (and a function) at the start of the
tick is invoked, in reverse insertion order — and, the registration pairs
being distinct, every other such registration is invoked exactly once:
neither skipped nor repeated. -/
theorem c9_self_unschedule (isFn : Nat → Bool) (j : Nat) (dt : Int) (s : SM)
    (t : Task) (A B : List Reg) (r0 : Reg)
    (hj : s.taskStack[j]? = some t)
    (hsplit : t.functionStack = A ++ r0 :: B)
    (hnd : (t.functionStack.map (fun r => (r.cb, r.ctx))).Nodup)
    (hr0pass : activePass isFn r0 = true)
    (hfire : ¬ t.delta > dt) :
    ∃ s', stepTask isFn (selfEff r0.cb r0.ctx) j dt s
        = some (s', pureCalls isFn (firedOf t dt) t.functionStack)
      ∧ ∀ r ∈ t.functionStack, (r.cb, r.ctx) ≠ (r0.cb, r0.ctx) →
          activePass isFn r = true →
            (pureCalls isFn (firedOf t dt) t.functionStack).count
              ⟨r.cb, r.ctx, firedOf t dt⟩ = 1 := by
  have hjlt : j < s.taskStack.length := (List.getElem?_eq_some_iff.mp hj).1
  have hlen0 : t.functionStack.length ≠ 0 := by rw [hsplit]; simp
  have hndL : ((A ++ r0 :: B).map (fun r => (r.cb, r.ctx))).Nodup := by
    rw [← hsplit]; exact hnd
  have hndL' := hndL
  rw [List.map_append, List.map_cons, List.nodup_append] at hndL'
  obtain ⟨-, hcons, hdisj⟩ := hndL'
  have hnotB : (r0.cb, r0.ctx) ∉ B.map (fun r => (r.cb, r.ctx)) :=
    (List.nodup_cons.mp hcons).1
  have hA : ∀ r ∈ A, (r.cb, r.ctx) ≠ (r0.cb, r0.ctx) := by
    intro r hrA heq
    have hmem : (r.cb, r.ctx) ∈ A.map (fun r => (r.cb, r.ctx)) :=
      List.mem_map.mpr ⟨r, hrA, rfl⟩
    have := hdisj hmem
    rw [heq] at this
    exact this (List.mem_cons_self _ _)
  have hB : ∀ r ∈ B, (r.cb, r.ctx) ≠ (r0.cb, r0.ctx) := by
    intro r hrB heq
    exact hnotB (heq ▸ List.mem_map.mpr ⟨r, hrB, rfl⟩)
  have hset : (s.taskStack.set j { t with delta := newDelta t dt })[j]?
      = some { t with delta := newDelta t dt } :=
    List.getElem?_set_self (by simpa using hjlt)
  have hlive : liveStack { s with taskStack := s.taskStack.set j { t with delta := newDelta t dt } } j
      = A ++ r0 :: B := by
    rw [liveStack_of_getElem _ j _ hset]
    exact hsplit
  have hcur : t.functionStack.length = A.length + 1 + B.length := by
    rw [hsplit]; simp only [List.length_append, List.length_cons]; omega
  have hflraw := fireLoop_selfRemove isFn j (firedOf t dt) A B r0 hr0pass hA hB B.length
    (Nat.le_refl _)
    { s with taskStack := s.taskStack.set j { t with delta := newDelta t dt } } none [] hlive
  have htakeall : (A ++ r0 :: B).take (A.length + 1 + B.length) = A ++ r0 :: B := by
    rw [show A.length + 1 + B.length = (A ++ r0 :: B).length by
          simp only [List.length_append, List.length_cons]; omega,
        List.take_length]
  rw [htakeall, List.nil_append, ← hcur, ← hsplit] at hflraw
  obtain ⟨h0, hL0⟩ : ∃ h0, t.functionStack[0]? = some h0 := by
    rw [hsplit]
    cases A with
    | nil => exact ⟨r0, by simp⟩
    | cons a as => exact ⟨a, by simp⟩
  rw [hL0] at hflraw
  simp only [firedOf, newDelta] at hflraw
  obtain ⟨s', hs'⟩ := stepTask_fire_exists isFn (selfEff r0.cb r0.ctx) j dt s _ t h0 _
    hj hlen0 hfire hflraw
  refine ⟨s', ?_, ?_⟩
  · rw [hs']
    simp [firedOf]
  · intro r hr _ hact
    exact pureCalls_count_one isFn (firedOf t dt) t.functionStack hnd r hr hact

/-- Witness for C9: a three-registration default-style task whose middle
registration (callback 2, context 20) removes itself mid-tick; all three
callbacks fire once, in reverse insertion order. -/
theorem c9_self_unschedule_witness :
    ∃ s', stepTask allFn (selfEff 2 20) 0 5
        ⟨[⟨0, 0, -1, [⟨true, 1, 10⟩, ⟨true, 2, 20⟩, ⟨true, 3, 30⟩]⟩], true, 0, 0⟩
      = some (s', [⟨3, 30, 5⟩, ⟨2, 20, 5⟩, ⟨1, 10, 5⟩])
      ∧ [(⟨3, 30, 5⟩ : Call), ⟨2, 20, 5⟩, ⟨1, 10, 5⟩].count ⟨1, 10, 5⟩ = 1 := by
  obtain ⟨s', hstep, hcount⟩ := c9_self_unschedule allFn 0 5
    ⟨[⟨0, 0, -1, [⟨true, 1, 10⟩, ⟨true, 2, 20⟩, ⟨true, 3, 30⟩]⟩], true, 0, 0⟩
    ⟨0, 0, -1, [⟨true, 1, 10⟩, ⟨true, 2, 20⟩, ⟨true, 3, 30⟩]⟩
    [⟨true, 1, 10⟩] [⟨true, 3, 30⟩] ⟨true, 2, 20⟩
    rfl rfl (by decide) rfl (by decide)
  refine ⟨s', ?_, ?_⟩
  · rw [hstep]; rfl
  · have hc := hcount ⟨true, 1, 10⟩ (by decide) (by decide) rfl
    simp only [pureCalls, firedOf] at hc
    exact hc

end LimeSM

namespace LimeSM

/-! ### Dispatch over limit-free tasks, and group pause/resume -/

/-- Effect of one `step_` on a task itself when no fire limit is involved. -/
def taskStepNoLimit (dt : Int) (t : Task) : Task :=
  if t.functionStack.length = 0 then t
  else if t.delta > dt then { t with delta := t.delta - dt }
  else { t with delta := newDelta t dt }

/-- The calls one `step_` makes for a task under non-re-entrant callbacks. -/
def taskCalls (isFn : Nat → Bool) (dt : Int) (t : Task) : List Call :=
  if t.functionStack.length = 0 then []
  else if t.delta > dt then []
  else pureCalls isFn (firedOf t dt) t.functionStack

theorem taskStepNoLimit_limit (dt : Int) (t : Task) :
    (taskStepNoLimit dt t).limit = t.limit := by
  unfold taskStepNoLimit
  split
  · rfl
  · split <;> rfl

theorem stepTask_noEff_noLimit (isFn : Nat → Bool) (j : Nat) (dt : Int)
    (s : SM) (t : Task) (hj : s.taskStack[j]? = some t) (hlim : t.limit = -1) :
    stepTask isFn noEff j dt s
      = some ({ s with taskStack := s.taskStack.set j (taskStepNoLimit dt t) },
          taskCalls isFn dt t) := by
  by_cases hemp : t.functionStack.length = 0
  · rw [stepTask_empty isFn noEff j dt s t hj hemp]
    unfold taskStepNoLimit taskCalls
    rw [if_pos hemp, if_pos hemp, set_getElem_self _ _ _ hj]
  · by_cases hacc : t.delta > dt
    · rw [stepTask_accum isFn noEff j dt s t hj hemp hacc]
      unfold taskStepNoLimit taskCalls
      rw [if_neg hemp, if_neg hemp, if_pos hacc, if_pos hacc]
    · have hhead : t.functionStack[0]? = some t.functionStack[0] :=
        List.getElem?_eq_getElem (Nat.pos_of_ne_zero hemp)
      have hq : ∀ r ∈ t.functionStack, activePass isFn r = true → noEff r.cb r.ctx = [] := by
        intro r _ _; rfl
      rw [stepTask_quiet isFn noEff j dt s t _ hj hq hhead hacc, if_pos hlim]
      unfold taskStepNoLimit taskCalls
      rw [if_neg hemp, if_neg hemp, if_neg hacc, if_neg hacc]

theorem dispatchLoop_noLimit (isFn : Nat → Bool) (dt : Int) :
    ∀ (m : Nat) (s : SM) (tr : List Call),
      m ≤ s.taskStack.length →
      (∀ t ∈ s.taskStack, t.limit = -1) →
      dispatchLoop isFn noEff dt m s tr
        = some ({ s with taskStack :=
              (s.taskStack.take m).map (taskStepNoLimit dt) ++ s.taskStack.drop m },
            tr ++ (((s.taskStack.take m).map (taskCalls isFn dt)).reverse).flatten) := by
  intro m
  induction m with
  | zero => intro s tr _ _; simp [dispatchLoop]
  | succ m ih =>
    intro s tr hle hlim
    have hm : m < s.taskStack.length := Nat.lt_of_succ_le hle
    have hget : s.taskStack[m]? = some s.taskStack[m] := List.getElem?_eq_getElem hm
    have hmem : s.taskStack[m] ∈ s.taskStack := List.getElem_mem hm
    have hstep := stepTask_noEff_noLimit isFn m dt s s.taskStack[m] hget (hlim _ hmem)
    have hunf : dispatchLoop isFn noEff dt (m + 1) s tr
        = dispatchLoop isFn noEff dt m
            { s with taskStack := s.taskStack.set m (taskStepNoLimit dt s.taskStack[m]) }
            (tr ++ taskCalls isFn dt s.taskStack[m]) := by
      simp only [dispatchLoop, hstep]
    have hsetlist : s.taskStack.set m (taskStepNoLimit dt s.taskStack[m])
        = s.taskStack.take m ++ taskStepNoLimit dt s.taskStack[m] :: s.taskStack.drop (m + 1) :=
      List.set_eq_take_cons_drop _ hm
    have hlim' : ∀ t ∈ s.taskStack.set m (taskStepNoLimit dt s.taskStack[m]), t.limit = -1 := by
      intro t ht
      rcases List.mem_or_eq_of_mem_set ht with h | h
      · exact hlim t h
      · rw [h, taskStepNoLimit_limit]
        exact hlim _ hmem
    have hlen' : m ≤ (s.taskStack.set m (taskStepNoLimit dt s.taskStack[m])).length := by
      simp
      omega
    rw [hunf, ih _ _ hlen' hlim']
    have htk : (s.taskStack.set m (taskStepNoLimit dt s.taskStack[m])).take m
        = s.taskStack.take m := by
      rw [hsetlist, List.take_append_eq_append_take]
      simp [List.take_take, Nat.le_of_lt hm]
    have hdr : (s.taskStack.set m (taskStepNoLimit dt s.taskStack[m])).drop m
        = taskStepNoLimit dt s.taskStack[m] :: s.taskStack.drop (m + 1) := by
      rw [hsetlist, List.drop_append_eq_append_drop]
      simp [Nat.le_of_lt hm, List.length_take, Nat.min_eq_left (Nat.le_of_lt hm)]
    have htake1 : s.taskStack.take (m + 1) = s.taskStack.take m ++ [s.taskStack[m]] := by
      rw [List.take_succ, hget]; rfl
    rw [htk, hdr, htake1]
    have hmapget : (List.map (taskStepNoLimit dt) s.taskStack)[m]?
        = some (taskStepNoLimit dt s.taskStack[m]) := by
      rw [List.getElem?_map, hget]; rfl
    have hcallget : (List.map (taskCalls isFn dt) s.taskStack)[m]?
        = some (taskCalls isFn dt s.taskStack[m]) := by
      rw [List.getElem?_map, hget]; rfl
    simp [List.map_append, List.append_assoc]
    constructor
    · rw [List.take_succ, hmapget]
      simp
    · rw [List.take_succ, hcallget]
      simp

theorem dispatch_noLimit (isFn : Nat → Bool) (dt : Int) (s : SM)
    (hlim : ∀ t ∈ s.taskStack, t.limit = -1) :
    dispatch isFn noEff dt s
      = some ({ s with taskStack := s.taskStack.map (taskStepNoLimit dt) },
          ((s.taskStack.map (taskCalls isFn dt)).reverse).flatten) := by
  unfold dispatch
  rw [dispatchLoop_noLimit isFn dt s.taskStack.length s [] (Nat.le_refl _) hlim]
  simp

end LimeSM

namespace LimeSM

/-- The per-registration assignment performed by `changeDirectorActivity`:
`f[0] = value` exactly when the context exposes `getDirector` and reports the
given director. -/
def pauseFlag (getD : Nat → Option Nat) (director : Nat) (value : Bool) (r : Reg) : Reg :=
  if getD r.ctx = some director then { r with active := value } else r

theorem changeDirectorActivity_eq (getD : Nat → Option Nat) (director : Nat)
    (value : Bool) (s : SM) :
    changeDirectorActivity getD director value s
      = { s with taskStack := s.taskStack.map (fun t =>
          { t with functionStack := t.functionStack.map (pauseFlag getD director value) }) } := rfl

theorem pureCalls_pause (isFn : Nat → Bool) (getD : Nat → Option Nat) (G : Nat)
    (fired : Int) :
    ∀ l : List Reg,
      ((l.map (pauseFlag getD G false)).filter (activePass isFn)).map
          (fun r => (⟨r.cb, r.ctx, fired⟩ : Call))
        = ((l.filter (activePass isFn)).map (fun r => (⟨r.cb, r.ctx, fired⟩ : Call))).filter
            (fun e => !(getD e.ctx == some G)) := by
  intro l
  induction l with
  | nil => rfl
  | cons r l ih =>
    by_cases hG : getD r.ctx = some G
    · have hpf : pauseFlag getD G false r = { r with active := false } := if_pos hG
      have hap : activePass isFn { r with active := false } = false := by
        simp [activePass]
      by_cases hpass : activePass isFn r
      · simp [List.filter_cons, hpf, hap, hpass, hG, ih]
      · simp [List.filter_cons, hpf, hap, hpass, ih]
    · have hpf : pauseFlag getD G false r = r := if_neg hG
      have hne : (getD r.ctx == some G) = false := by
        exact beq_eq_false_iff_ne.mpr hG
      by_cases hpass : activePass isFn r
      · simp [List.filter_cons, hpf, hpass, hne, ih]
      · simp [List.filter_cons, hpf, hpass, ih]

/-- One `step_` on a group-paused task produces exactly the original calls
with the paused group's contexts filtered out. -/
theorem taskCalls_pause (isFn : Nat → Bool) (getD : Nat → Option Nat) (G : Nat)
    (dt : Int) (t : Task) :
    taskCalls isFn dt { t with functionStack := t.functionStack.map (pauseFlag getD G false) }
      = (taskCalls isFn dt t).filter (fun e => !(getD e.ctx == some G)) := by
  unfold taskCalls
  simp only [List.length_map]
  by_cases hemp : t.functionStack.length = 0
  · rw [if_pos hemp, if_pos hemp]
    rfl
  · rw [if_neg hemp, if_neg hemp]
    by_cases hacc : t.delta > dt
    · rw [if_pos hacc, if_pos hacc]
      rfl
    · rw [if_neg hacc, if_neg hacc]
      show pureCalls isFn (firedOf t dt) (t.functionStack.map (pauseFlag getD G false)) = _
      unfold pureCalls
      rw [← List.map_reverse]
      exact pureCalls_pause isFn getD G (firedOf t dt) t.functionStack.reverse

theorem dispatch_pause (isFn : Nat → Bool) (getD : Nat → Option Nat) (G : Nat)
    (dt : Int) (s : SM) (hlim : ∀ t ∈ s.taskStack, t.limit = -1) :
    ∃ st1 st2 trace,
      dispatch isFn noEff dt s = some (st2, trace)
      ∧ dispatch isFn noEff dt (changeDirectorActivity getD G false s)
          = some (st1, trace.filter (fun e => !(getD e.ctx == some G))) := by
  have hbase := dispatch_noLimit isFn dt s hlim
  have hlimP : ∀ t ∈ (changeDirectorActivity getD G false s).taskStack, t.limit = -1 := by
    rw [changeDirectorActivity_eq]
    intro t ht
    obtain ⟨t0, ht0, hmap⟩ := List.mem_map.mp ht
    rw [← hmap]
    exact hlim t0 ht0
  have hpause := dispatch_noLimit isFn dt (changeDirectorActivity getD G false s) hlimP
  have htr : (((changeDirectorActivity getD G false s).taskStack.map (taskCalls isFn dt)).reverse).flatten
      = (((s.taskStack.map (taskCalls isFn dt)).reverse).flatten).filter
          (fun e => !(getD e.ctx == some G)) := by
    rw [changeDirectorActivity_eq]
    show ((((s.taskStack.map (fun t => { t with functionStack := t.functionStack.map (pauseFlag getD G false) })).map (taskCalls isFn dt)).reverse).flatten) = _
    rw [List.map_map]
    have hcomp : (taskCalls isFn dt) ∘ (fun t : Task =>
        { t with functionStack := t.functionStack.map (pauseFlag getD G false) })
        = fun t => (taskCalls isFn dt t).filter (fun e => !(getD e.ctx == some G)) := by
      funext t
      exact taskCalls_pause isFn getD G dt t
    rw [hcomp]
    have : (s.taskStack.map (fun t => (taskCalls isFn dt t).filter (fun e => !(getD e.ctx == some G))))
        = (s.taskStack.map (taskCalls isFn dt)).map (List.filter (fun e => !(getD e.ctx == some G))) := by
      rw [List.map_map]
      rfl
    rw [this, ← List.map_reverse, ← List.filter_flatten]
  rw [htr] at hpause
  exact ⟨_, _, _, hbase, hpause⟩

end LimeSM

namespace LimeSM

/-- C8.  `changeGroupActivity` (source: `changeDirectorActivity`): (i) sets
the active flag to the given value on exactly those registrations whose
context exposes the group lookup and reports the given group, leaving all
other registrations untouched; (ii) removes or adds no registration; (iii) on
the next dispatch tick after pausing a group the invocation trace is exactly
the unpaused trace with that group's calls filtered out — no paused callback
fires while other groups' callbacks still fire; (iv) resuming restores the
original state without re-registration.  `hlim` restricts to tasks without a
fire limit (a limit teardown could remove a registration for reasons
unrelated to pausing); `hact` says group members were active before pausing. -/
theorem c8_group_activity (isFn : Nat → Bool) (getD : Nat → Option Nat) (G : Nat)
    (dt : Int) (s : SM)
    (hlim : ∀ t ∈ s.taskStack, t.limit = -1)
    (hact : ∀ t ∈ s.taskStack, ∀ r ∈ t.functionStack, getD r.ctx = some G → r.active = true) :
    (∀ (v : Bool) (jx kx : Nat) (t : Task) (r : Reg),
        s.taskStack[jx]? = some t → t.functionStack[kx]? = some r →
        ∃ t', (changeDirectorActivity getD G v s).taskStack[jx]? = some t'
          ∧ t'.functionStack[kx]?
              = some (if getD r.ctx = some G then { r with active := v } else r))
    ∧ (∀ v : Bool,
        (changeDirectorActivity getD G v s).taskStack.map
            (fun t => t.functionStack.map (fun r => (r.cb, r.ctx)))
          = s.taskStack.map (fun t => t.functionStack.map (fun r => (r.cb, r.ctx))))
    ∧ (∃ st1 st2 trace,
        dispatch isFn noEff dt s = some (st2, trace)
        ∧ dispatch isFn noEff dt (changeDirectorActivity getD G false s)
            = some (st1, trace.filter (fun e => !(getD e.ctx == some G)))
        ∧ ∀ e ∈ trace.filter (fun e => !(getD e.ctx == some G)), ¬ getD e.ctx = some G)
    ∧ changeDirectorActivity getD G true (changeDirectorActivity getD G false s) = s := by
  refine ⟨?_, ?_, ?_, ?_⟩
  · intro v jx kx t r hjx hkx
    refine ⟨{ t with functionStack := t.functionStack.map (pauseFlag getD G v) }, ?_, ?_⟩
    · rw [changeDirectorActivity_eq]
      show (s.taskStack.map _)[jx]? = _
      rw [List.getElem?_map, hjx]
      rfl
    · show (t.functionStack.map (pauseFlag getD G v))[kx]? = _
      rw [List.getElem?_map, hkx]
      rfl
  · intro v
    rw [changeDirectorActivity_eq]
    show (s.taskStack.map _).map _ = _
    rw [List.map_map]
    apply List.map_congr_left
    intro t _
    show (t.functionStack.map (pauseFlag getD G v)).map _ = _
    rw [List.map_map]
    apply List.map_congr_left
    intro r _
    simp only [Function.comp_apply]
    unfold pauseFlag
    split <;> rfl
  · obtain ⟨st1, st2, trace, h1, h2⟩ := dispatch_pause isFn getD G dt s hlim
    refine ⟨st1, st2, trace, h1, h2, ?_⟩
    intro e he
    have := (List.mem_filter.mp he).2
    simp only [Bool.not_eq_eq_eq_not, Bool.not_false, beq_iff_eq] at this
    intro hcontra
    rw [hcontra] at this
    simp at this
  · rw [changeDirectorActivity_eq, changeDirectorActivity_eq]
    show ({ s with taskStack := (s.taskStack.map _).map _ } : SM) = s
    rw [List.map_map]
    have hmaps : ∀ t ∈ s.taskStack,
        ((fun t : Task => { t with functionStack := t.functionStack.map (pauseFlag getD G true) }) ∘
          (fun t : Task => { t with functionStack := t.functionStack.map (pauseFlag getD G false) })) t = t := by
      intro t ht
      show ({ t with functionStack := (t.functionStack.map (pauseFlag getD G false)).map (pauseFlag getD G true) } : Task) = t
      rw [List.map_map]
      have : ∀ r ∈ t.functionStack, (pauseFlag getD G true ∘ pauseFlag getD G false) r = r := by
        intro r hr
        show pauseFlag getD G true (pauseFlag getD G false r) = r
        unfold pauseFlag
        by_cases hG : getD r.ctx = some G
        · rw [if_pos hG]
          show (if getD r.ctx = some G then _ else _) = r
          rw [if_pos hG]
          have hra : r.active = true := hact t ht r hr hG
          cases r
          simp at hra
          simp [hra]
        · rw [if_neg hG, if_neg hG]
      rw [List.map_congr_left this]
      simp
    rw [List.map_congr_left hmaps]
    simp

/-- Witness for C8: one default-style task holding context 10 (group 7) and
context 20 (group 8); pausing group 7 and dispatching 16 ms fires only the
group-8 callback, and resuming restores the original state. -/
theorem c8_group_activity_witness :
    (∃ st1, dispatch allFn noEff 16
        (changeDirectorActivity
          (fun x => if x = 10 then some 7 else if x = 20 then some 8 else none) 7 false
          ⟨[⟨0, 0, -1, [⟨true, 1, 10⟩, ⟨true, 2, 20⟩]⟩], true, 0, 0⟩)
      = some (st1, [⟨2, 20, 16⟩]))
    ∧ changeDirectorActivity
        (fun x => if x = 10 then some 7 else if x = 20 then some 8 else none) 7 true
        (changeDirectorActivity
          (fun x => if x = 10 then some 7 else if x = 20 then some 8 else none) 7 false
          ⟨[⟨0, 0, -1, [⟨true, 1, 10⟩, ⟨true, 2, 20⟩]⟩], true, 0, 0⟩)
      = ⟨[⟨0, 0, -1, [⟨true, 1, 10⟩, ⟨true, 2, 20⟩]⟩], true, 0, 0⟩ := by
  obtain ⟨-, -, ⟨st1, st2, trace, h1, h2, -⟩, h4⟩ := c8_group_activity allFn
    (fun x => if x = 10 then some 7 else if x = 20 then some 8 else none) 7 16
    ⟨[⟨0, 0, -1, [⟨true, 1, 10⟩, ⟨true, 2, 20⟩]⟩], true, 0, 0⟩
    (by decide) (by decide)
  have hbase : dispatch allFn noEff 16
      ⟨[⟨0, 0, -1, [⟨true, 1, 10⟩, ⟨true, 2, 20⟩]⟩], true, 0, 0⟩
      = some (⟨[⟨0, 0, -1, [⟨true, 1, 10⟩, ⟨true, 2, 20⟩]⟩], true, 0, 0⟩,
          [⟨2, 20, 16⟩, ⟨1, 10, 16⟩]) := by
    decide
  rw [hbase] at h1
  have htrace : trace = [⟨2, 20, 16⟩, ⟨1, 10, 16⟩] :=
    (congrArg Prod.snd (Option.some.inj h1)).symm
  rw [htrace] at h2
  refine ⟨⟨st1, ?_⟩, h4⟩
  rw [h2]
  rfl

end LimeSM

namespace LimeSM

/-! ### `callAfter` end to end -/

/-- The scheduler after `callAfter` from the initial state: empty default
task, plus the one-shot task with cadence `delay`, accumulator `acc`,
limit 1 and the single registration. -/
def casRun (now delay acc : Int) (cb ctx : Nat) : SM :=
  ⟨[⟨0, 0, -1, []⟩, ⟨delay, acc, 1, [⟨true, cb, ctx⟩]⟩], true, 1000/30, now⟩

/-- The scheduler after the one-shot has fired: both tasks empty, limit
exhausted, the one-shot task still present (see C2). -/
def casDone (now delay acc : Int) : SM :=
  ⟨[⟨0, 0, -1, []⟩, ⟨delay, acc, 0, []⟩], true, 1000/30, now⟩

theorem callAfter_init (now delay : Int) (cb ctx : Nat) :
    callAfter now cb ctx delay init = casRun now delay delay cb ctx := rfl

theorem unschedule_no_disable (f c : Nat) (s : SM) (h : s.taskStack.length ≠ 1) :
    unschedule f c s = { s with taskStack := s.taskStack.map (taskUnsched f c) } := by
  unfold unschedule
  rw [unscheduleTasksLoop_eq_map]
  dsimp only
  split
  · next t0 heq =>
    exfalso
    apply h
    have := congrArg List.length heq
    simpa using this
  · rfl

theorem dispatch_casRun_noFire (now delay acc : Int) (cb ctx : Nat) (d : Int)
    (hacc : acc > d) :
    dispatch allFn noEff d (casRun now delay acc cb ctx)
      = some (casRun now delay (acc - d) cb ctx, []) := by
  have hstep1 := stepTask_accum allFn noEff 1 d (casRun now delay acc cb ctx)
      ⟨delay, acc, 1, [⟨true, cb, ctx⟩]⟩ rfl (by simp) hacc
  have hstep0 := stepTask_empty allFn noEff 0 d (casRun now delay (acc - d) cb ctx)
      ⟨0, 0, -1, []⟩ rfl rfl
  show dispatchLoop allFn noEff d 2 (casRun now delay acc cb ctx) [] = _
  simp only [dispatchLoop, hstep1]
  show dispatchLoop allFn noEff d 1 (casRun now delay (acc - d) cb ctx) [] = _
  simp only [dispatchLoop, hstep0]
  rfl

theorem dispatch_casDone (now delay acc d : Int) :
    dispatch allFn noEff d (casDone now delay acc) = some (casDone now delay acc, []) := by
  have hstep1 := stepTask_empty allFn noEff 1 d (casDone now delay acc)
      ⟨delay, acc, 0, []⟩ rfl rfl
  have hstep0 := stepTask_empty allFn noEff 0 d (casDone now delay acc)
      ⟨0, 0, -1, []⟩ rfl rfl
  show dispatchLoop allFn noEff d 2 (casDone now delay acc) [] = _
  simp only [dispatchLoop, hstep1, hstep0]
  rfl

theorem runDispatches_casDone (now delay acc : Int) :
    ∀ ds : List Int, runDispatches allFn noEff ds (casDone now delay acc)
      = some (casDone now delay acc, []) := by
  intro ds
  induction ds with
  | nil => rfl
  | cons d ds ih =>
    simp only [runDispatches, dispatch_casDone, ih]
    rfl

theorem unschedule_casDone (cb ctx : Nat) (now delay acc : Int) :
    unschedule cb ctx (casDone now delay acc) = casDone now delay acc := by
  rw [unschedule_no_disable cb ctx _ (by simp [casDone])]
  show ({ casDone now delay acc with
      taskStack := [taskUnsched cb ctx ⟨0, 0, -1, []⟩, taskUnsched cb ctx ⟨delay, acc, 0, []⟩] } : SM)
    = casDone now delay acc
  rfl

end LimeSM

namespace LimeSM

theorem dispatch_casRun_fire (now delay acc : Int) (cb ctx : Nat) (d : Int)
    (hacc : ¬ acc > d) :
    dispatch allFn noEff d (casRun now delay acc cb ctx)
      = some (casDone now delay (if delay - (d - acc) < 0 then 0 else delay - (d - acc)),
          [⟨cb, ctx, delay + d - acc⟩]) := by
  have hq : ∀ r ∈ [(⟨true, cb, ctx⟩ : Reg)], activePass allFn r = true → noEff r.cb r.ctx = [] := by
    intro r _ _; rfl
  have hstep1 := stepTask_quiet allFn noEff 1 d (casRun now delay acc cb ctx)
      ⟨delay, acc, 1, [⟨true, cb, ctx⟩]⟩ ⟨true, cb, ctx⟩ rfl hq rfl hacc
  rw [if_neg (by simp), if_pos rfl] at hstep1
  have hcalls : pureCalls allFn (firedOf ⟨delay, acc, 1, [⟨true, cb, ctx⟩]⟩ d) [⟨true, cb, ctx⟩]
      = [⟨cb, ctx, delay + d - acc⟩] := by
    simp [pureCalls, activePass, allFn, firedOf]
  rw [hcalls] at hstep1
  have hun : unschedule cb ctx
      { casRun now delay acc cb ctx with
        taskStack := (casRun now delay acc cb ctx).taskStack.set 1
          ({ (⟨delay, acc, 1, [⟨true, cb, ctx⟩]⟩ : Task) with
             delta := newDelta ⟨delay, acc, 1, [⟨true, cb, ctx⟩]⟩ d, limit := 1 - 1 }) }
      = casDone now delay (if delay - (d - acc) < 0 then 0 else delay - (d - acc)) := by
    rw [unschedule_no_disable cb ctx _ (by simp [casRun])]
    show ({ casRun now delay acc cb ctx with
        taskStack := [taskUnsched cb ctx ⟨0, 0, -1, []⟩,
          taskUnsched cb ctx ⟨delay, newDelta ⟨delay, acc, 1, [⟨true, cb, ctx⟩]⟩ d, 1 - 1, [⟨true, cb, ctx⟩]⟩] } : SM)
      = _
    unfold taskUnsched newDelta
    simp [casRun, casDone, regKeep, Reg.isMatch]
  rw [hun] at hstep1
  have hstep0 := stepTask_empty allFn noEff 0 d
      (casDone now delay (if delay - (d - acc) < 0 then 0 else delay - (d - acc)))
      ⟨0, 0, -1, []⟩ rfl rfl
  show dispatchLoop allFn noEff d 2 (casRun now delay acc cb ctx) [] = _
  simp only [dispatchLoop, hstep1]
  show dispatchLoop allFn noEff d 1
      (casDone now delay (if delay - (d - acc) < 0 then 0 else delay - (d - acc)))
      ([] ++ [⟨cb, ctx, delay + d - acc⟩]) = _
  simp only [dispatchLoop, hstep0]
  rfl

end LimeSM

namespace LimeSM

/-- Specification-side view of the one-shot task's accumulator run: `none`
if the accumulated ticks never reach the accumulator, otherwise the elapsed
time reported at the (first) firing tick. -/
def fireView (delay acc : Int) : List Int → Option Int
  | [] => none
  | d :: ds => if acc > d then fireView delay (acc - d) ds else some (delay + d - acc)

theorem runDispatches_casRun (now delay : Int) (cb ctx : Nat) :
    ∀ (ds : List Int) (acc : Int),
      (fireView delay acc ds = none →
        runDispatches allFn noEff ds (casRun now delay acc cb ctx)
          = some (casRun now delay (acc - ds.sum) cb ctx, []))
      ∧ (∀ fv, fireView delay acc ds = some fv →
        ∃ acc2, runDispatches allFn noEff ds (casRun now delay acc cb ctx)
          = some (casDone now delay acc2, [⟨cb, ctx, fv⟩])) := by
  intro ds
  induction ds with
  | nil =>
    intro acc
    constructor
    · intro _
      show some (casRun now delay acc cb ctx, []) = _
      rw [show acc - ([] : List Int).sum = acc by simp]
    · intro fv hfv
      exact absurd hfv (by simp [fireView])
  | cons d ds ih =>
    intro acc
    by_cases hacc : acc > d
    · have hfv : fireView delay acc (d :: ds) = fireView delay (acc - d) ds := by
        simp [fireView, hacc]
      constructor
      · intro hnone
        rw [hfv] at hnone
        have hrec := (ih (acc - d)).1 hnone
        show (match dispatch allFn noEff d (casRun now delay acc cb ctx) with
          | some (s', tr) =>
            match runDispatches allFn noEff ds s' with
            | some (s'', tr') => some (s'', tr ++ tr')
            | none => none
          | none => none) = _
        simp only [dispatch_casRun_noFire now delay acc cb ctx d hacc, hrec]
        have harith : acc - d - ds.sum = acc - (d :: ds).sum := by
          rw [List.sum_cons]
          omega
        rw [harith]
        rfl
      · intro fv hsome
        rw [hfv] at hsome
        obtain ⟨acc2, hrec⟩ := (ih (acc - d)).2 fv hsome
        refine ⟨acc2, ?_⟩
        show (match dispatch allFn noEff d (casRun now delay acc cb ctx) with
          | some (s', tr) =>
            match runDispatches allFn noEff ds s' with
            | some (s'', tr') => some (s'', tr ++ tr')
            | none => none
          | none => none) = _
        simp only [dispatch_casRun_noFire now delay acc cb ctx d hacc, hrec]
        rfl
    · have hfv : fireView delay acc (d :: ds) = some (delay + d - acc) := by
        simp [fireView, hacc]
      constructor
      · intro hnone
        rw [hfv] at hnone
        exact absurd hnone (by simp)
      · intro fv hsome
        rw [hfv] at hsome
        have hfveq : fv = delay + d - acc := (Option.some.inj hsome).symm
        refine ⟨if delay - (d - acc) < 0 then 0 else delay - (d - acc), ?_⟩
        show (match dispatch allFn noEff d (casRun now delay acc cb ctx) with
          | some (s', tr) =>
            match runDispatches allFn noEff ds s' with
            | some (s'', tr') => some (s'', tr ++ tr')
            | none => none
          | none => none) = _
        simp only [dispatch_casRun_fire now delay acc cb ctx d hacc,
          runDispatches_casDone now delay _ ds, hfveq]
        rfl

end LimeSM

namespace LimeSM

theorem fireView_spec (delay : Int) :
    ∀ (ds : List Int) (c : Int),
      ((∀ k, k < ds.length → c + ((ds.take (k+1)).sum) < delay) →
        fireView delay (delay - c) ds = none)
      ∧ (∀ k, k < ds.length → delay ≤ c + ((ds.take (k+1)).sum) →
          (∀ k', k' < k → c + ((ds.take (k'+1)).sum) < delay) →
          fireView delay (delay - c) ds = some (c + ((ds.take (k+1)).sum))) := by
  intro ds
  induction ds with
  | nil =>
    intro c
    exact ⟨fun _ => rfl, fun k hk => absurd hk (by simp)⟩
  | cons d ds ih =>
    intro c
    constructor
    · intro hall
      have h0 : c + d < delay := by
        have := hall 0 (by simp)
        simpa using this
      have hgt : delay - c > d := by omega
      have hunf : fireView delay (delay - c) (d :: ds) = fireView delay (delay - c - d) ds := by
        simp [fireView, hgt]
      rw [hunf, show delay - c - d = delay - (c + d) by omega]
      apply (ih (c + d)).1
      intro k hk
      have := hall (k + 1) (by simpa using Nat.succ_lt_succ hk)
      rw [List.take_succ_cons, List.sum_cons] at this
      omega
    · intro k hk hreach hfirst
      cases k with
      | zero =>
        rw [List.take_succ_cons, List.take_zero, List.sum_cons, List.sum_nil] at hreach
        have hle : ¬ delay - c > d := by omega
        simp only [fireView, if_neg hle]
        rw [List.take_succ_cons, List.take_zero, List.sum_cons, List.sum_nil]
        congr 1
        omega
      | succ k' =>
        have h0 : c + d < delay := by
          have := hfirst 0 (Nat.succ_pos k')
          rw [List.take_succ_cons, List.take_zero, List.sum_cons, List.sum_nil] at this
          omega
        have hgt : delay - c > d := by omega
        have hunf : fireView delay (delay - c) (d :: ds) = fireView delay (delay - c - d) ds := by
          simp [fireView, hgt]
        rw [hunf, show delay - c - d = delay - (c + d) by omega]
        have hrec := (ih (c + d)).2 k' (by simpa using Nat.lt_of_succ_lt_succ hk)
          (by
            rw [List.take_succ_cons, List.sum_cons] at hreach
            omega)
          (by
            intro k'' hk''
            have := hfirst (k'' + 1) (Nat.succ_lt_succ hk'')
            rw [List.take_succ_cons, List.sum_cons] at this
            omega)
        rw [hrec]
        rw [show (c + d) + ((ds.take (k'+1)).sum) = c + (((d :: ds).take (k'+1+1)).sum) by
          rw [List.take_succ_cons, List.sum_cons]; omega]

end LimeSM

namespace LimeSM

/-- C5.  `callAfter(cb, ctx, delay)` from the initial state: running any tick
sequence `ds`, the callback is invoked exactly once, at the first tick whose
accumulated delta reaches `delay` (with reported elapsed time equal to that
accumulated delta), and never if no prefix reaches `delay`; after the firing
the registration is removed, a subsequent `unschedule` is a no-op, and no
tick sequence ever invokes it again. -/
theorem c5_callAfter (now delay : Int) (cb ctx : Nat) (ds : List Int) :
    ∃ sF trace,
      runDispatches allFn noEff ds (callAfter now cb ctx delay init) = some (sF, trace)
      ∧ ((∀ k, k < ds.length → ((ds.take (k+1)).sum) < delay) → trace = [])
      ∧ (∀ k, k < ds.length → delay ≤ ((ds.take (k+1)).sum) →
          (∀ k', k' < k → ((ds.take (k'+1)).sum) < delay) →
          trace = [⟨cb, ctx, ((ds.take (k+1)).sum)⟩]
          ∧ (∀ t ∈ sF.taskStack, t.functionStack = [])
          ∧ unschedule cb ctx sF = sF
          ∧ ∀ ds', runDispatches allFn noEff ds' sF = some (sF, [])) := by
  rw [callAfter_init]
  have hmain := runDispatches_casRun now delay cb ctx ds delay
  have hbridge := fireView_spec delay ds 0
  rw [show delay - (0 : Int) = delay by omega] at hbridge
  cases hfv : fireView delay delay ds with
  | none =>
    have hrun := hmain.1 hfv
    refine ⟨_, [], hrun, fun _ => rfl, ?_⟩
    intro k hk hreach hfirst
    have hcontra := hbridge.2 k hk (by omega)
      (fun k' hk' => by have := hfirst k' hk'; omega)
    rw [hfv] at hcontra
    exact absurd hcontra (by simp)
  | some fv =>
    obtain ⟨acc2, hrun⟩ := hmain.2 fv hfv
    refine ⟨_, _, hrun, ?_, ?_⟩
    · intro hall
      have hcontra := hbridge.1 (fun k hk => by have := hall k hk; omega)
      rw [hfv] at hcontra
      exact absurd hcontra (by simp)
    · intro k hk hreach hfirst
      have hsome := hbridge.2 k hk (by omega)
        (fun k' hk' => by have := hfirst k' hk'; omega)
      rw [hfv] at hsome
      have hfveq : fv = 0 + ((ds.take (k+1)).sum) := Option.some.inj hsome
      refine ⟨?_, ?_, ?_, ?_⟩
      · rw [hfveq]
        simp
      · intro t ht
        simp only [casDone, List.mem_cons, List.not_mem_nil, or_false] at ht
        rcases ht with h | h <;> rw [h]
      · exact unschedule_casDone cb ctx now delay acc2
      · intro ds'
        exact runDispatches_casDone now delay acc2 ds'

/-- Witness for C5: delay 10, ticks 4 then 7; the accumulated delta first
reaches 10 at the second tick, the callback fires once with elapsed 11, and
unscheduling afterwards is a no-op. -/
theorem c5_callAfter_witness :
    ∃ sF, runDispatches allFn noEff [4, 7] (callAfter 0 1 2 10 init)
        = some (sF, [⟨1, 2, 11⟩])
      ∧ unschedule 1 2 sF = sF := by
  obtain ⟨sF, trace, hrun, -, h3⟩ := c5_callAfter 0 10 1 2 [4, 7]
  obtain ⟨htr, -, hno, -⟩ := h3 1 (by decide) (by decide) (by decide)
  refine ⟨sF, ?_, hno⟩
  rw [hrun, htr]
  rfl

end LimeSM
